import Mathlib

/-!
Verification of the Fortran binding generator (Source/Modules/fortran.cxx).

The development below gives a shallow embedding of the generator code that the
claims refer to.  Strings are modelled as lists of characters (DOH strings keep
an explicit length, so a string value is exactly its character content), node
attributes become structure fields, and the mutable registries and accumulation
buffers become explicitly threaded state.  Each definition mirrors one function
or one code path of the source file; the doc comment of every definition names
the function it embeds.
-/

namespace SwigFortran

set_option autoImplicit false

/-! ## Character and string helpers -/

/-- Character class used by `make_fname`: the C test
`*c == '_' || (*c >= '0' && *c <= '9')`. -/
def isUD (c : Char) : Bool := c = '_' || ('0' ≤ c && c ≤ '9')

/-- ASCII lowering of one character, as `tolower` does per character inside
`Swig_string_lower`. -/
def lowerChar (c : Char) : Char :=
  if 'A' ≤ c && c ≤ 'Z' then Char.ofNat (c.toNat + 32) else c

/-- `Swig_string_lower`: lower every character. -/
def lowerStr (s : List Char) : List Char := s.map lowerChar

/-- Little-endian decimal digits of a natural number, with a fuel argument
making the recursion structural; `natDigitsRev` passes the number itself,
which bounds the digit count. -/
def natDigitsRevAux : Nat → Nat → List Char
  | 0, _ => []
  | fuel + 1, n =>
    if n = 0 then []
    else Char.ofNat (48 + n % 10) :: natDigitsRevAux fuel (n / 10)

/-- Little-endian decimal digits of a natural number (empty for zero);
helper for `natDigits`. -/
def natDigitsRev (n : Nat) : List Char := natDigitsRevAux n n

/-- Decimal rendering of a natural number, as the `%d` conversion of
`NewStringf` produces it. -/
def natDigits (n : Nat) : List Char :=
  if n = 0 then ['0'] else (natDigitsRev n).reverse

/-- Value of a little-endian decimal digit list; used to invert `natDigitsRev`. -/
def digitsVal : List Char → Nat
  | [] => 0
  | c :: r => (c.toNat - 48) + 10 * digitsVal r

/-! ## Identifier validity and the mangler (`is_valid_identifier`,
`shorten_identifier`, `ensure_short`, `make_fname`) -/

/-- `is_valid_identifier`: nonempty, does not start with an underscore or a
digit, and is at most 63 characters long. -/
def is_valid_identifier (name : List Char) : Bool :=
  match name with
  | [] => false
  | c :: _ =>
    if c = '_' then false
    else if '0' ≤ c && c ≤ '9' then false
    else name.length ≤ 63

/-- One step of the rolling hash in `shorten_identifier`:
`hash = (hash * 33 + *src) & 0xffffffffu`. -/
def hash_step (h : Nat) (c : Char) : Nat := (h * 33 + c.toNat) % 4294967296

/-- The rolling hash loop of `shorten_identifier`, seeded with 5381. -/
def hash_from (l : List Char) : Nat := l.foldl hash_step 5381

/-- Base-36 digit encoding used by `shorten_identifier`:
`rem < 10 ? '0' + rem : 'A' + rem - 10`. -/
def hash_digit (r : Nat) : Char :=
  if r < 10 then Char.ofNat (48 + r) else Char.ofNat (55 + r)

/-- The digit-writing loop of `shorten_identifier`:
`while (hash > 0) { *dst-- = digit(hash % 36); hash /= 36; }`.
The first `Nat` argument is fuel making the recursion structural; every call
passes the initial hash value itself, which bounds the iteration count, so the
fuel never runs out.  A store at a position at or beyond the length of the
list is dropped (`List.set` out of range is the identity), which is exactly
what happens to a byte stored over the NUL terminator of a DOH string: the
string value, whose length is tracked separately, does not contain it. -/
def write_hash : Nat → List Char → Nat → Nat → List Char
  | 0, l, _, _ => l
  | fuel + 1, l, pos, h =>
    if h = 0 then l
    else write_hash fuel (l.set pos (hash_digit (h % 36))) (pos - 1) (h / 36)

/-- `shorten_identifier`: keep the first 63 characters, hash everything from
position `63 - 8 = 55` of the input to its end, and store the base-36 digits
of the hash from character offset 63 downwards (`char *dst = Char(result) + 63`,
and `*dst--` stores before decrementing, so the first digit written, the least
significant one, lands at offset 63, one past the last character of the
63-character result). -/
def shorten_identifier (inp : List Char) : List Char :=
  let h := hash_from (inp.drop (63 - 8))
  write_hash h (inp.take 63) 63 h

/-- `ensure_short`: shorten only the strings longer than 63 characters. -/
def ensure_short (str : List Char) : List Char :=
  if str.length > 63 then shorten_identifier str else str

/-- `make_fname`: move a leading run of underscores and digits to the back of
the string (prepending `f` when nothing remains), then `ensure_short`. -/
def make_fname (name : List Char) : List Char :=
  let lead := name.takeWhile isUD
  let rest := name.dropWhile isUD
  let moved :=
    if lead.isEmpty then name
    else if rest.isEmpty then 'f' :: lead
    else rest ++ lead
  ensure_short moved

/-- The result of the format string `swigc_%s` building the interface name in
`functionWrapper`. -/
def swigc_stem (s : List Char) : List Char := ['s', 'w', 'i', 'g', 'c', '_'] ++ s

/-- The result of the format string `swigf_%s` inside
`proxy_name_construct`. -/
def swigf_stem (s : List Char) : List Char := ['s', 'w', 'i', 'g', 'f', '_'] ++ s

/-- `proxy_name_construct` for a module-level symbol (no namespace, no class):
`swigf_%s` followed by `ensure_short`. -/
def proxy_name_construct (symname : List Char) : List Char :=
  ensure_short (swigf_stem symname)

/-! ## Concrete input for the shortening claim -/

/-- A 70-character raw name: a 55-character prefix of `x` characters followed
by 15 `y` characters. -/
def c2_input : List Char := List.replicate 55 'x' ++ List.replicate 15 'y'

/-- The behavior the claim describes for `shorten_identifier` (spec wording,
for comparison with the code): the base-36 digits of the hash are written
right-aligned over the last N characters of the 63-character base, i.e. the
least significant digit lands at offset 62, the last character of the result. -/
def spec_shorten_identifier (inp : List Char) : List Char :=
  let h := hash_from (inp.drop 55)
  write_hash h (inp.take 63) 62 h

/-- What the code actually produces on `c2_input`: the hash is 2672699804,
whose base-36 digits are 1 8 7 9 8 D 8; the final digit 8 is stored one
position past the end and is lost, so only `18798D` remains, preceded by two
retained `y` characters. -/
def c2_code_output : List Char :=
  List.replicate 55 'x' ++ ['y', 'y', '1', '8', '7', '9', '8', 'D']

/-! ## Enum nativeness (`is_fortran_intexpr`, `is_native_enum`) -/

/-- The inner loop of `is_fortran_intexpr`: every remaining character must be
a decimal digit. -/
def digit_run : List Char → Bool
  | [] => true
  | c :: r => c.isDigit && digit_run r

/-- `is_fortran_intexpr`: empty is rejected; one leading minus sign is
consumed (a bare minus therefore succeeds, because the remaining loop sees an
empty string); a first remaining character `0` followed by anything is an
octal-looking literal and is rejected; all remaining characters must be
digits. -/
def is_fortran_intexpr (s : List Char) : Bool :=
  match s with
  | [] => false
  | c :: p =>
    match (if c = '-' then p else c :: p) with
    | [] => true
    | c1 :: r => if c1 = '0' ∧ r ≠ [] then false else digit_run (c1 :: r)

/-- One member of an enum declaration: the attributes of the child node that
`is_native_enum` inspects. -/
structure EnumMember where
  hasError : Bool
  ignored : Bool
  enumvalue : Option (List Char)
  deriving DecidableEq

/-- An enum declaration: the `feature:fortran:const` attribute and the child
list. -/
structure EnumNode where
  feature_const : Option (List Char)
  members : List EnumMember
  deriving DecidableEq

/-- The child loop of `is_native_enum`: return false as soon as a child has an
error or is ignored, or has an initializer that is not a plain integer
expression. -/
def native_members : List EnumMember → Bool
  | [] => true
  | c :: rest =>
    if c.hasError || c.ignored then false
    else
      match c.enumvalue with
      | some v => if is_fortran_intexpr v then native_members rest else false
      | none => native_members rest

/-- `is_native_enum`: with no `feature:fortran:const` attribute the members
decide; the feature value `0` forces the constant path; any other feature
value forces the native path. -/
def is_native_enum (n : EnumNode) : Bool :=
  match n.feature_const with
  | none => native_members n.members
  | some f => if f = ['0'] then false else true

/-- The literal criterion as the claim words it (spec wording, for comparison
with the code): a plain base-10 integer literal with an optional leading
minus, at least one digit, and no octal-looking leading zero. -/
def spec_plain_literal (s : List Char) : Bool :=
  match s with
  | [] => false
  | c :: p =>
    match (if c = '-' then p else c :: p) with
    | [] => false
    | c1 :: r => (c1 :: r).all Char.isDigit && !(c1 == '0' && !r.isEmpty)

/-- The enum-nativeness criterion exactly as the claim states it (spec
wording, for comparison with the code): members that are ignored or errored
are exempted from the literal requirement. -/
def claimed_is_native_enum (n : EnumNode) : Bool :=
  match n.feature_const with
  | none =>
    n.members.all fun m =>
      m.ignored || m.hasError ||
        (match m.enumvalue with
         | some v => spec_plain_literal v
         | none => true)
  | some f => if f = ['0'] then false else true

/-- The amended enum-nativeness criterion: no member may be ignored or
errored, and every present initializer must pass the plain-literal check
(which also vacuously accepts a bare minus sign). -/
def amended_is_native_enum (n : EnumNode) : Bool :=
  match n.feature_const with
  | none =>
    n.members.all fun m =>
      !m.ignored && !m.hasError &&
        (match m.enumvalue with
         | some v => (v == ['-']) || spec_plain_literal v
         | none => true)
  | some f => if f = ['0'] then false else true

/-- An enum with a single ignored member and no feature override: the claim
exempts the member, the code rejects the whole enum. -/
def c3_enum : EnumNode :=
  { feature_const := none
  , members := [{ hasError := false, ignored := true, enumvalue := none }] }

/-- An enum whose single member is initialized with a bare minus sign: not a
plain base-10 integer literal per the claim, yet accepted by the code because
`is_fortran_intexpr` consumes the sign and then sees an empty digit run. -/
def c3_enum_minus : EnumNode :=
  { feature_const := none
  , members := [{ hasError := false, ignored := false, enumvalue := some ['-'] }] }

/-! ## Symbol registry (`add_fsymbol`) -/

/-- Outcome of a handler: `SWIG_OK` or `SWIG_NOWRAP`. -/
inductive RegResult where
  | ok
  | nowrap
  deriving DecidableEq

/-- The module-level case-folded symbol scope plus the diagnostics emitted
while registering: `warns` records (new node, case-folded name, existing
node) triples from the name-conflict warning, `errs` records the names
rejected as invalid identifiers. -/
structure RegState where
  scope : List (List Char × Nat)
  warns : List (Nat × List Char × Nat)
  errs : List (List Char)
  deriving DecidableEq

/-- Lookup in the case-folded scope (`symbolLookup` on the fortran scope). -/
def scope_lookup : List (List Char × Nat) → List Char → Option Nat
  | [], _ => none
  | e :: rest, key => if e.1 = key then some e.2 else scope_lookup rest key

/-- `FORTRAN::add_fsymbol`: reject invalid identifiers with a hard error;
case-fold the name; on a collision emit the conflict warning (when the warn
argument is not `WARN_NONE`) and skip registration; otherwise register the
case-folded name for the node.  Nodes are identified by a numeric id. -/
def add_fsymbol (s : List Char) (nid : Nat) (warn : Bool) (st : RegState) :
    RegResult × RegState :=
  if is_valid_identifier s = false then
    (RegResult.nowrap, { st with errs := st.errs ++ [s] })
  else
    match scope_lookup st.scope (lowerStr s) with
    | some existing =>
      (RegResult.nowrap,
        if warn then { st with warns := st.warns ++ [(nid, lowerStr s, existing)] } else st)
    | none =>
      (RegResult.ok, { st with scope := st.scope ++ [(lowerStr s, nid)] })

/-- Empty registry state. -/
def reg_empty : RegState := { scope := [], warns := [], errs := [] }

/-- The name `Foo` for the registration claim. -/
def c5_foo_mixed : List Char := ['F', 'o', 'o']

/-- The name `foo` for the registration claim. -/
def c5_foo_lower : List Char := ['f', 'o', 'o']

/-! ## Stage-1 wrapper emission order (`cfuncWrapper`) -/

/-- The typemap snippets attached to one parameter that `cfuncWrapper`
emits. -/
structure CParm where
  has_in : Bool
  has_check : Bool
  has_freearg : Bool
  has_argout : Bool
  deriving DecidableEq

/-- A snippet of the emitted stage-1 wrapper body, tagged with the index of
the parameter it belongs to. -/
inductive CSnip where
  | tin : Nat → CSnip
  | tcheck : Nat → CSnip
  | callout : CSnip
  | targout : Nat → CSnip
  | tfreearg : Nat → CSnip
  | tret : CSnip
  | retstmt : CSnip
  deriving DecidableEq

/-- The parameter loop of `cfuncWrapper`: per parameter, the `in` and `check`
snippets go to the code buffer, the `freearg` snippet is accumulated into the
`cleanup` buffer and the `argout` snippet into the `outarg` buffer. -/
def cfunc_loop :
    List CParm → Nat → List CSnip → List CSnip → List CSnip →
      List CSnip × List CSnip × List CSnip
  | [], _, code, outarg, cleanup => (code, outarg, cleanup)
  | p :: rest, i, code, outarg, cleanup =>
    cfunc_loop rest (i + 1)
      (code ++ (if p.has_in then [CSnip.tin i] else []) ++
        (if p.has_check then [CSnip.tcheck i] else []))
      (outarg ++ (if p.has_argout then [CSnip.targout i] else []))
      (cleanup ++ (if p.has_freearg then [CSnip.tfreearg i] else []))

/-- The emitted body of the stage-1 wrapper, in source order: the parameter
loop fills the three buffers; then the action plus `out` conversion (the
single call to the underlying operation, emitted when the `out` typemap is
present and nonempty), then the `outarg` buffer, then the `cleanup` buffer,
then the `ret` snippet when present, then the return statement unless the
wrapper is a subroutine. -/
def cfuncWrapper_code (ps : List CParm) (has_out has_ret is_csub : Bool) :
    List CSnip :=
  let bufs := cfunc_loop ps 0 [] [] []
  bufs.1 ++ (if has_out then [CSnip.callout] else []) ++ bufs.2.1 ++ bufs.2.2 ++
    (if has_ret then [CSnip.tret] else []) ++
    (if is_csub then [] else [CSnip.retstmt])

/-- The order the spec describes (spec wording, for comparison): first, per
parameter in declaration order, the `in` then the `check` snippet. -/
def spec_in_checks : List CParm → Nat → List CSnip
  | [], _ => []
  | p :: rest, i =>
    (if p.has_in then [CSnip.tin i] else []) ++
      (if p.has_check then [CSnip.tcheck i] else []) ++ spec_in_checks rest (i + 1)

/-- The `argout` snippets in declaration order (spec wording). -/
def spec_argouts : List CParm → Nat → List CSnip
  | [], _ => []
  | p :: rest, i =>
    (if p.has_argout then [CSnip.targout i] else []) ++ spec_argouts rest (i + 1)

/-- The `freearg` snippets in declaration order (spec wording). -/
def spec_freeargs : List CParm → Nat → List CSnip
  | [], _ => []
  | p :: rest, i =>
    (if p.has_freearg then [CSnip.tfreearg i] else []) ++ spec_freeargs rest (i + 1)

/-- The full stage-1 order exactly as the claim states it (spec wording, for
comparison with the code): conversions and checks, then the single call, then
all argouts, then all freeargs, then the `ret` snippet immediately before the
return statement. -/
def spec_stage1_code (ps : List CParm) (has_out has_ret is_csub : Bool) :
    List CSnip :=
  spec_in_checks ps 0 ++ (if has_out then [CSnip.callout] else []) ++
    spec_argouts ps 0 ++ spec_freeargs ps 0 ++
    (if has_ret then [CSnip.tret] else []) ++
    (if is_csub then [] else [CSnip.retstmt])

/-! ## Destructor shadow code (`destructorHandler`) -/

/-- The proxy-side class handle: the `swigdata` component holding the C
pointer and the memory flags. -/
structure SwigClassWrapper where
  cptr : Nat
  cmemflags : Nat
  deriving DecidableEq

/-- Semantics of the `feature:shadow` code attached by `destructorHandler`:
the underlying destructor action runs only when the ownership bit of
`cmemflags` is set (`btest(farg1%cmemflags, swig_cmem_own_bit)`); afterwards
the pointer is set to `C_NULL_PTR` (0) and the flags are cleared.  Returns
the new handle state and whether the destructive action was invoked. -/
def release_shadow (ownBit : Nat) (s : SwigClassWrapper) :
    SwigClassWrapper × Bool :=
  (⟨0, 0⟩, s.cmemflags.testBit ownBit)

/-- Number of times the underlying destructive action runs over `n`
successive invocations of the release operation. -/
def release_invocations (ownBit : Nat) : Nat → SwigClassWrapper → Nat
  | 0, _ => 0
  | n + 1, s =>
    (if (release_shadow ownBit s).2 then 1 else 0) +
      release_invocations ownBit n (release_shadow ownBit s).1

/-! ## Class handling in interoperable-struct mode (`classHandler`,
`memberfunctionHandler`) -/

/-- A base-class reference as `classHandler` sees it: the `feature:ignore`
flag and the `fortran:name` of the base. -/
structure BaseRef where
  ignored : Bool
  fortran_name : List Char
  deriving DecidableEq

/-- The class attributes the interoperable-struct checks use: the
`fortran:name`, the bindc feature, the base list, and the symnames of the
member functions dispatched to `memberfunctionHandler`. -/
structure ClassDecl where
  fortran_name : List Char
  bindc : Bool
  bases : List BaseRef
  memberFns : List (List Char)
  deriving DecidableEq

/-- The base loop of `classHandler`: the first base not marked
`feature:ignore` provides the base name; later non-ignored bases only produce
the multiple-inheritance warning and are dropped. -/
def first_base (bases : List BaseRef) : Option (List Char) :=
  match bases.find? (fun b => !b.ignored) with
  | some b => some b.fortran_name
  | none => none

/-- `FORTRAN::memberfunctionHandler` restricted to the interoperable-struct
check: in a bindc struct the handler emits a hard error (`Swig_error`) and
returns `SWIG_NOWRAP` before emitting anything for the member; otherwise the
member function is bound. -/
def memberfunctionHandler_bindc (bindcStruct : Bool) (fsym : List Char) :
    Except (List Char) (List Char) :=
  if bindcStruct then Except.error fsym else Except.ok fsym

/-- The aggregate emitted for one class: its name, the `extends` clause from
the first base, the `bind(C)` attribute, and its bound member procedures. -/
structure EmittedClass where
  symname : List Char
  extendsBase : Option (List Char)
  bindcAttr : Bool
  boundMembers : List (List Char)
  deriving DecidableEq

/-- Result of handling one class declaration: hard errors recorded via
`Swig_error` plus the emitted aggregate, if any. -/
structure ClassResult where
  errors : List (List Char)
  emitted : Option EmittedClass
  deriving DecidableEq

/-- Names carried by the error results in a list of member outcomes. -/
def exc_errs : List (Except (List Char) (List Char)) → List (List Char)
  | [] => []
  | Except.error e :: rest => e :: exc_errs rest
  | Except.ok _ :: rest => exc_errs rest

/-- Names carried by the successful results in a list of member outcomes. -/
def exc_oks : List (Except (List Char) (List Char)) → List (List Char)
  | [] => []
  | Except.ok m :: rest => m :: exc_oks rest
  | Except.error _ :: rest => exc_oks rest

/-- `FORTRAN::classHandler`, restricted to the structure of the
interoperable-struct claims: a bindc struct with a surviving base name fails
with a hard error before anything is emitted; otherwise the aggregate is
emitted and its member functions are dispatched, each failing individually in
bindc mode. -/
def classHandler (n : ClassDecl) : ClassResult :=
  if n.bindc && (first_base n.bases).isSome then
    { errors := [n.fortran_name], emitted := none }
  else
    { errors := exc_errs (n.memberFns.map (memberfunctionHandler_bindc n.bindc))
    , emitted := some
        { symname := n.fortran_name
        , extendsBase := first_base n.bases
        , bindcAttr := n.bindc
        , boundMembers := exc_oks (n.memberFns.map (memberfunctionHandler_bindc n.bindc)) } }

/-- The bound members visible in a class result (empty when nothing was
emitted). -/
def emitted_members (r : ClassResult) : List (List Char) :=
  match r.emitted with
  | some e => e.boundMembers
  | none => []

/-- Modelled from the spec: the traversal over sibling declarations, which is
outside this translation unit (`Language::top`).  The spec states that
failure of a single declaration aborts only that declaration and is non-fatal
to the run, so every sibling is processed independently. -/
def process_classes (ds : List ClassDecl) : List ClassResult := ds.map classHandler

/-- A bindc struct declaring one non-ignored base class. -/
def c6_with_base : ClassDecl :=
  { fortran_name := ['s'], bindc := true
  , bases := [{ ignored := false, fortran_name := ['b'] }], memberFns := [] }

/-- A bindc struct declaring one member function. -/
def c6_with_member : ClassDecl :=
  { fortran_name := ['t'], bindc := true, bases := [], memberFns := [['m']] }

/-! ## Constant emission (`constantWrapper`) -/

/-- The attributes of a constant or enum-member node that the emission branch
of `constantWrapper` consults, with the outcomes of the external template
lookups precomputed: the attached `bindc` typemap, the dimension check, the
`feature:fortran:const` native-parameter flag, the expanded `out` typemap,
and whether the `ctype` typemap parses. -/
structure ConstInfo where
  symname : List Char
  bindc_tm : Option (List Char)
  dims_ok : Bool
  native_param : Bool
  out_tm : Option (List Char)
  ctype_ok : Bool
  deriving DecidableEq

/-- What is emitted for a constant. -/
inductive ConstEmit where
  | enumMember
  | paramDecl
  | accessor
  | nowrap
  deriving DecidableEq

/-- The semicolon count of the expanded `out` template, the proxy the code
uses for its statement count. -/
def count_semicolons (s : List Char) : Nat := s.countP (fun c => c == ';')

/-- The emission branch of `FORTRAN::constantWrapper` (after the value and
unique symbol name are computed): missing `bindc` typemap warns and skips;
bad dimensions skip; inside a native enum the member is appended to the
enumerator list; a native parameter becomes a `parameter` declaration;
otherwise the accessor path runs: a missing `out` typemap warns and skips, a
semicolon count different from one warns and skips, a failing `ctype` parse
skips, and only then are the C wrapper variable and its bound Fortran
declaration emitted.  Returns what is emitted and whether a diagnostic was
emitted. -/
def constantWrapper_emit (inEnum : Bool) (n : ConstInfo) : ConstEmit × Bool :=
  match n.bindc_tm with
  | none => (ConstEmit.nowrap, true)
  | some _ =>
    if !n.dims_ok then (ConstEmit.nowrap, true)
    else if inEnum then (ConstEmit.enumMember, false)
    else if n.native_param then (ConstEmit.paramDecl, false)
    else
      match n.out_tm with
      | none => (ConstEmit.nowrap, true)
      | some code =>
        if count_semicolons code ≠ 1 then (ConstEmit.nowrap, true)
        else if !n.ctype_ok then (ConstEmit.nowrap, true)
        else (ConstEmit.accessor, false)

/-- A constant whose `out` template expands to two statements. -/
def c9_two_statements : ConstInfo :=
  { symname := ['k'], bindc_tm := some ['t'], dims_ok := true
  , native_param := false
  , out_tm := some (['a', ';', 'b', ';']), ctype_ok := true }

/-- A constant whose `out` template expands to exactly one statement. -/
def c9_one_statement : ConstInfo :=
  { symname := ['k'], bindc_tm := some ['t'], dims_ok := true
  , native_param := false
  , out_tm := some (['a', ';']), ctype_ok := true }

/-! ## Module-level function wrapping and overload grouping
(`functionWrapper`, `write_module`) -/

/-- The module-level generator state threaded through `functionWrapper`: the
symbol registry, the `d_overloads` hash (public generic name to the list of
private proxy names, in registration order), and the names exposed with
`public ::` directly in the declaration section. -/
structure ModState where
  reg : RegState
  d_overloads : List (List Char × List (List Char))
  fdecl_publics : List (List Char)
  deriving DecidableEq

/-- `get_default_list` plus `Append`: append a name to the overload list of a
key, creating the entry on first use.  One entry per key, as in the DOH
hash. -/
def overloads_add :
    List (List Char × List (List Char)) → List Char → List Char →
      List (List Char × List (List Char))
  | [], key, name => [(key, [name])]
  | e :: rest, key, name =>
    if e.1 = key then (e.1, e.2 ++ [name]) :: rest
    else e :: overloads_add rest key name

/-- The attributes of a function node consulted by the module-level
non-bindc, non-member path of `functionWrapper`: the unique symbol name, the
overload suffix (`sym:overname`, present iff `sym:overloaded`), and the
optional renames from `feature:fortran:generic` and `fortran:name`. -/
structure FuncNode where
  id : Nat
  symname : List Char
  overname : Option (List Char)
  generic_feature : Option (List Char)
  fortran_name : Option (List Char)
  deriving DecidableEq

/-- The name computation at the top of `functionWrapper` for a module-level
non-bindc function without `fortran:fname` or `fortran:variable` attributes:
the interface name is `swigc_` plus the symbol name (shortened); the proxy
name starts as `make_fname` of the symbol name; the public alias comes from
`feature:fortran:generic` or `fortran:name` when given.  For an overloaded
function the overload suffix is appended to the interface name, and, when no
alias was given, the proxy name becomes the public alias while the private
proxy name is rebuilt by `proxy_name_construct`; the suffix is appended to
the proxy name.  Returns (interface name, proxy name, public alias). -/
def overload_names (n : FuncNode) : List Char × List Char × Option (List Char) :=
  match n.overname with
  | some ov =>
    match (match n.generic_feature with
           | some g => some g
           | none => n.fortran_name) with
    | none =>
      (ensure_short (swigc_stem n.symname) ++ ov,
        proxy_name_construct n.symname ++ ov,
        some (make_fname n.symname))
    | some fs =>
      (ensure_short (swigc_stem n.symname) ++ ov,
        make_fname n.symname ++ ov,
        some fs)
  | none =>
    (ensure_short (swigc_stem n.symname),
      make_fname n.symname,
      match n.generic_feature with
      | some g => some g
      | none => n.fortran_name)

/-- `FORTRAN::functionWrapper` restricted to the module-level path of the
overload claim (non-bindc, non-member, not private): compute the names,
register the interface name and then the proxy name in the case-folded scope
(returning early with `SWIG_NOWRAP` on a conflict), then either append the
proxy name to the overload list of the public alias, or expose the proxy
name directly with `public ::`. -/
def functionWrapper_mod (st : ModState) (n : FuncNode) : ModState :=
  if (add_fsymbol (overload_names n).1 n.id true st.reg).1 = RegResult.nowrap then
    { st with reg := (add_fsymbol (overload_names n).1 n.id true st.reg).2 }
  else
    if (add_fsymbol (overload_names n).2.1 n.id true
        (add_fsymbol (overload_names n).1 n.id true st.reg).2).1 = RegResult.nowrap then
      { st with reg := (add_fsymbol (overload_names n).2.1 n.id true
          (add_fsymbol (overload_names n).1 n.id true st.reg).2).2 }
    else
      match (overload_names n).2.2 with
      | some fs =>
        { st with
          reg := (add_fsymbol (overload_names n).2.1 n.id true
            (add_fsymbol (overload_names n).1 n.id true st.reg).2).2,
          d_overloads := overloads_add st.d_overloads fs (overload_names n).2.1 }
      | none =>
        { st with
          reg := (add_fsymbol (overload_names n).2.1 n.id true
            (add_fsymbol (overload_names n).1 n.id true st.reg).2).2,
          fdecl_publics := st.fdecl_publics ++ [(overload_names n).2.1] }

/-- The generic interface groups that `write_module` prints: one
`interface`/`module procedure` block per `d_overloads` entry. -/
def module_interfaces (st : ModState) : List (List Char × List (List Char)) :=
  st.d_overloads

/-- The names `write_module` exposes with `public ::`: the names published
directly into the declaration section and the keys of the generic groups. -/
def module_publics (st : ModState) : List (List Char) :=
  st.fdecl_publics ++ st.d_overloads.map (fun e => e.1)

/-- Empty module state. -/
def mod_empty : ModState := { reg := reg_empty, d_overloads := [], fdecl_publics := [] }

/-- The private proxy name generated for one overload of a module-level
function: `swigf_` plus the symbol name plus the overload suffix. -/
def swigf_name (s o : List Char) : List Char := swigf_stem s ++ o

/-- Processing three same-named overloads in registration order from the
initial module state. -/
def c4_run (s o1 o2 o3 : List Char) : ModState :=
  functionWrapper_mod
    (functionWrapper_mod
      (functionWrapper_mod mod_empty
        { id := 1, symname := s, overname := some o1
        , generic_feature := none, fortran_name := none })
      { id := 2, symname := s, overname := some o2
      , generic_feature := none, fortran_name := none })
    { id := 3, symname := s, overname := some o3
    , generic_feature := none, fortran_name := none }

/-- Concrete symbol name for the overload-grouping witness. -/
def c4_sym : List Char := ['m', 'y', 'f', 'u', 'n', 'c']

/-- Concrete overload suffixes for the witness, as SWIG generates them. -/
def c4_ov (k : Char) : List Char := ['_', '_', 'S', 'W', 'I', 'G', '_', k]

/-! ## Parameter naming (`makeParameterName`) -/

/-- Whether a declared parameter name contains the C++ scope separator, the
`Strstr(name, "::")` test. -/
def hasCC : List Char → Bool
  | ':' :: ':' :: _ => true
  | _ :: rest => hasCC rest
  | [] => false

/-- A parameter node as `makeParameterName` sees it: the declared name and
the cached derived name (`fname`). -/
structure MPParm where
  pname : Option (List Char)
  fname : Option (List Char)
  deriving DecidableEq

/-- The initial candidate of `makeParameterName`: the declared name when it
is a nonempty valid identifier without a scope separator (converted to
lowercase), otherwise `arg%d`. -/
def mpn_orig (p : MPParm) (arg_num : Nat) : List Char :=
  match p.pname with
  | some nm =>
    if nm.length > 0 ∧ is_valid_identifier nm = true ∧ hasCC nm = false then
      lowerStr nm
    else ['a', 'r', 'g'] ++ natDigits arg_num
  | none => ['a', 'r', 'g'] ++ natDigits arg_num

/-- One validity test of the loop in `makeParameterName`: the candidate is
rejected when an earlier parameter in the list already carries it as its
derived name, or when it is registered in the module-level fortran scope. -/
def mpn_taken (earlier : List MPParm) (symtab : List (List Char))
    (cand : List Char) : Bool :=
  earlier.any (fun q => decide (q.fname = some cand)) || decide (cand ∈ symtab)

/-- The renaming loop of `makeParameterName`: while the candidate is taken,
replace it by the original name followed by the current integer, and
increment the integer.  The fuel argument makes the recursion structural;
`makeParameterName` passes one more than the number of possible collisions,
which the uniqueness proof shows is enough for the loop to settle. -/
def mpn_loop (earlier : List MPParm) (symtab : List (List Char))
    (orig : List Char) : Nat → Nat → List Char → List Char
  | 0, _, cand => cand
  | fuel + 1, argnum, cand =>
    if mpn_taken earlier symtab cand then
      mpn_loop earlier symtab orig fuel (argnum + 1) (orig ++ natDigits argnum)
    else cand

/-- The candidate inspected at iteration `k` of the renaming loop. -/
def mpn_cand (orig : List Char) : Nat → Nat → List Char → List Char
  | 0, _, cand => cand
  | k + 1, argnum, _ => mpn_cand orig k (argnum + 1) (orig ++ natDigits argnum)

/-- `FORTRAN::makeParameterName` for the parameter at position `idx` of the
parameter list: return the cached `fname` when present; otherwise derive the
initial candidate, rename it until it collides neither with the derived
names of the earlier parameters nor with the module scope, and cache the
result on the parameter. -/
def makeParameterName (parms : List MPParm) (symtab : List (List Char))
    (idx : Nat) (arg_num : Nat) : List Char × List MPParm :=
  match parms[idx]? with
  | none => ([], parms)
  | some p =>
    match p.fname with
    | some nm => (nm, parms)
    | none =>
      (mpn_loop (parms.take idx) symtab (mpn_orig p arg_num)
          ((parms.take idx).length + symtab.length + 1) arg_num (mpn_orig p arg_num),
        parms.set idx
          { p with fname := some (mpn_loop (parms.take idx) symtab (mpn_orig p arg_num)
              ((parms.take idx).length + symtab.length + 1) arg_num
              (mpn_orig p arg_num)) })

/-- A two-parameter list whose first parameter already carries the derived
name `n`, and whose second parameter is declared `n` but not yet derived. -/
def c10_parms : List MPParm :=
  [{ pname := some ['n'], fname := some ['n'] },
    { pname := some ['n'], fname := none }]

/-- A module scope already holding the identifier `n1`. -/
def c10_symtab : List (List Char) := [['n', '1']]

/-! ## Theorems -/

theorem write_hash_length (fuel : Nat) :
    ∀ (l : List Char) (pos h : Nat), (write_hash fuel l pos h).length = l.length := by
  induction fuel with
  | zero => intro l pos h; rfl
  | succ fuel ih =>
    intro l pos h
    rw [write_hash]
    by_cases h0 : h = 0
    · simp [h0]
    · simp only [if_neg h0]
      rw [ih, List.length_set]

theorem hash_step_lt (h : Nat) (c : Char) : hash_step h c < 4294967296 := by
  exact Nat.mod_lt _ (by decide)

theorem hash_from_lt (l : List Char) : hash_from l < 4294967296 := by
  have general : ∀ (l : List Char) (a : Nat), a < 4294967296 →
      l.foldl hash_step a < 4294967296 := by
    intro l
    induction l with
    | nil => intro a ha; exact ha
    | cons c r ih => intro a _; exact ih (hash_step a c) (hash_step_lt a c)
  exact general l 5381 (by decide)

theorem write_hash_getElem?_low (fuel : Nat) :
    ∀ (k h : Nat), h < 36 ^ k → ∀ (l : List Char) (pos i : Nat), i + k ≤ pos →
      (write_hash fuel l pos h)[i]? = l[i]? := by
  induction fuel with
  | zero => intro k h _ l pos i _; rfl
  | succ fuel ih =>
    intro k h hk l pos i hpos
    rw [write_hash]
    by_cases h0 : h = 0
    · simp [h0]
    · simp only [if_neg h0]
      cases k with
      | zero =>
        exact absurd (Nat.lt_one_iff.mp (by simpa using hk)) h0
      | succ k =>
        have hdiv : h / 36 < 36 ^ k := by
          rw [Nat.div_lt_iff_lt_mul (by decide : 0 < 36)]
          calc h < 36 ^ (k + 1) := hk
            _ = 36 ^ k * 36 := by rw [Nat.pow_succ]
        have hpos1 : i + k ≤ pos - 1 := by omega
        rw [ih k (h / 36) hdiv _ _ _ hpos1]
        have hne : pos ≠ i := by omega
        exact List.getElem?_set_ne hne

theorem ensure_short_length (s : List Char) : (ensure_short s).length ≤ 63 := by
  rw [ensure_short]
  by_cases hlen : s.length > 63
  · simp only [if_pos hlen]
    rw [shorten_identifier, write_hash_length, List.length_take]
    omega
  · simp only [if_neg hlen]
    omega

theorem ensure_short_getElem?_zero (s : List Char) :
    (ensure_short s)[0]? = s[0]? := by
  rw [ensure_short]
  by_cases hlen : s.length > 63
  · simp only [if_pos hlen]
    rw [shorten_identifier]
    have hhash : hash_from (s.drop (63 - 8)) < 36 ^ 7 := by
      have := hash_from_lt (s.drop (63 - 8))
      omega
    rw [write_hash_getElem?_low _ 7 _ hhash _ _ _ (by omega)]
    rw [List.getElem?_take]
    simp
  · simp only [if_neg hlen]

theorem dropWhile_getElem?_zero (p : Char → Bool) :
    ∀ (l : List Char) (c : Char), (l.dropWhile p)[0]? = some c → p c = false := by
  intro l
  induction l with
  | nil => intro c hc; simp at hc
  | cons a t ih =>
    intro c hc
    rw [List.dropWhile_cons] at hc
    by_cases ha : p a
    · simp only [if_pos ha] at hc
      exact ih c hc
    · simp only [if_neg ha] at hc
      simp at hc
      rw [← hc]
      exact Bool.of_not_eq_true ha

theorem takeWhile_nil_getElem?_zero (p : Char → Bool) (l : List Char) (c : Char)
    (hl : l.takeWhile p = []) (hc : l[0]? = some c) : p c = false := by
  cases l with
  | nil => simp at hc
  | cons a t =>
    rw [List.takeWhile_cons] at hl
    by_cases ha : p a
    · simp [if_pos ha] at hl
    · simp at hc
      rw [← hc]
      exact Bool.of_not_eq_true ha

theorem takeWhile_eq_nil_of_getElem?_zero (p : Char → Bool) (l : List Char)
    (h : ∀ c, l[0]? = some c → p c = false) : l.takeWhile p = [] := by
  cases l with
  | nil => rfl
  | cons a t =>
    rw [List.takeWhile_cons]
    have := h a (by simp)
    simp [this]

theorem make_fname_getElem?_zero (name : List Char) (c : Char)
    (hc : (make_fname name)[0]? = some c) : isUD c = false := by
  rw [make_fname] at hc
  rw [ensure_short_getElem?_zero] at hc
  by_cases hlead : (name.takeWhile isUD).isEmpty
  · simp only [if_pos hlead] at hc
    exact takeWhile_nil_getElem?_zero isUD name c (List.isEmpty_iff.mp hlead) hc
  · simp only [if_neg hlead] at hc
    by_cases hrest : (name.dropWhile isUD).isEmpty
    · simp only [if_pos hrest] at hc
      simp at hc
      rw [← hc]
      decide
    · simp only [if_neg hrest] at hc
      have hlen : 0 < (name.dropWhile isUD).length := by
        refine List.length_pos.mpr (fun hnil => hrest ?_)
        simp [hnil]
      rw [List.getElem?_append, if_pos hlen] at hc
      exact dropWhile_getElem?_zero isUD name c hc

theorem make_fname_length (name : List Char) : (make_fname name).length ≤ 63 := by
  rw [make_fname]
  exact ensure_short_length _

/-- Claim C1: the identifier mangler `make_fname` is pure (it is a function of
its input only) and idempotent, and its result never exceeds 63 characters:
for every input string, mangling twice equals mangling once, and the length of
the result is at most 63. -/
theorem C1_make_fname_idempotent_and_bounded (x : List Char) :
    make_fname (make_fname x) = make_fname x ∧ (make_fname x).length ≤ 63 := by
  refine ⟨?_, make_fname_length x⟩
  have htw : (make_fname x).takeWhile isUD = [] :=
    takeWhile_eq_nil_of_getElem?_zero isUD (make_fname x)
      (fun c hc => make_fname_getElem?_zero x c hc)
  conv_lhs => rw [make_fname]
  rw [htw]
  simp only [List.isEmpty_nil, if_pos]
  rw [ensure_short]
  have := make_fname_length x
  simp only [if_neg (by omega : ¬ (make_fname x).length > 63)]

/-- Claim C2: the code disagrees with the claimed right-alignment of the hash
digits.  At the concrete 70-character input `c2_input`, `make_fname` (which
defers to `shorten_identifier`) produces a 63-character result whose tail is
`yy18798D`: the least significant base-36 digit of the hash 2672699804 (digit
sequence 1 8 7 9 8 D 8) is stored one position past the end of the
63-character string, over the NUL terminator, and is therefore not part of the
result.  The claimed behavior, writing all digits right-aligned over the last
N characters (`spec_shorten_identifier`), would instead end with `y18798D8`.
The two disagree, exhibiting the off-by-one in `shorten_identifier`. -/
theorem C2_shorten_misaligned_at_input :
    make_fname c2_input = c2_code_output ∧
    make_fname c2_input ≠ spec_shorten_identifier c2_input := by
  exact ⟨by decide, by decide⟩

theorem digit_run_eq_all (l : List Char) : digit_run l = l.all Char.isDigit := by
  induction l with
  | nil => rfl
  | cons c r ih => simp [digit_run, ih, List.all_cons]

theorem intexpr_tail_eq (c1 : Char) (r : List Char) :
    (if c1 = '0' ∧ r ≠ [] then false else digit_run (c1 :: r)) =
      ((c1 :: r).all Char.isDigit && !(c1 == '0' && !r.isEmpty)) := by
  by_cases h0 : c1 = '0' ∧ r ≠ []
  · rw [if_pos h0]
    obtain ⟨h1, h2⟩ := h0
    subst h1
    have hr : r.isEmpty = false := by
      cases r with
      | nil => exact absurd rfl h2
      | cons a b => rfl
    simp [hr]
  · rw [if_neg h0, digit_run_eq_all]
    have : (c1 == '0' && !r.isEmpty) = false := by
      by_cases h1 : c1 = '0'
      · subst h1
        have h2 : r = [] := by
          by_contra hr
          exact h0 ⟨rfl, hr⟩
        subst h2
        rfl
      · have hb : (c1 == '0') = false := by
          simp [h1]
        simp [hb]
    simp [this]

theorem intexpr_eq_spec (v : List Char) :
    is_fortran_intexpr v = ((v == ['-']) || spec_plain_literal v) := by
  cases v with
  | nil => rfl
  | cons c p =>
    simp only [is_fortran_intexpr, spec_plain_literal]
    by_cases hc : c = '-'
    · subst hc
      simp only [if_pos rfl]
      cases p with
      | nil => simp
      | cons c1 r =>
        have hne : ((('-' :: c1 :: r : List Char)) == ['-']) = false := by
          simp
        rw [hne, Bool.false_or]
        exact intexpr_tail_eq c1 r
    · simp only [if_neg hc]
      have hne : (((c :: p : List Char)) == ['-']) = false := by
        simp [hc]
      rw [hne, Bool.false_or]
      exact intexpr_tail_eq c p

/-- Claim C3 counterexample: the claim exempts ignored and errored members
from the plain-literal requirement, but `is_native_enum` returns false as
soon as any member is ignored or errored.  At `c3_enum` (no feature override,
one ignored member without an initializer), the claimed criterion is
satisfied while the code refuses the native enumeration path.  The second
conjunct shows the literal check itself also deviates from the claim: a bare
minus initializer is accepted by the code but is not a plain base-10 integer
literal. -/
theorem C3_counterexample_ignored_member :
    (claimed_is_native_enum c3_enum = true ∧ is_native_enum c3_enum = false) ∧
    (claimed_is_native_enum c3_enum_minus = false ∧
      is_native_enum c3_enum_minus = true) := by
  decide

/-- Claim C3 (amended): an enumeration takes the native-enumeration path iff
the per-enum feature override forces it on, or, when no override is present,
no member is ignored or errored and every member initializer that is present
passes the plain-literal check (an optionally minus-signed digit run with no
octal-looking leading zero; the check also vacuously accepts a bare minus
sign); otherwise every member goes through the constant path. -/
theorem C3_native_enum_amended (n : EnumNode) :
    is_native_enum n = amended_is_native_enum n := by
  obtain ⟨feat, members⟩ := n
  cases feat with
  | some f => rfl
  | none =>
    simp only [is_native_enum, amended_is_native_enum]
    induction members with
    | nil => rfl
    | cons m rest ih =>
      rw [native_members, List.all_cons, ← ih]
      cases hE : m.hasError with
      | true =>
        rw [if_pos (by simp [hE])]
        simp [hE]
      | false =>
        cases hI : m.ignored with
        | true =>
          rw [if_pos (by simp [hE, hI])]
          simp [hI]
        | false =>
          rw [if_neg (by simp [hE, hI])]
          simp only [hE, hI, Bool.not_false, Bool.true_and]
          cases hv : m.enumvalue with
          | some v =>
            simp only [intexpr_eq_spec]
            cases hb : ((v == ['-']) || spec_plain_literal v) <;> simp [hb]
          | none => simp

/-- Claim C5: registering `Foo` and then `foo` in the same scope succeeds the
first time, and the second registration is a conflict: it returns
`SWIG_NOWRAP`, is skipped (the scope still maps the case-folded name `foo` to
the first declaration), and, since the severity is warn, a diagnostic naming
both declarations is recorded. -/
theorem C5_case_insensitive_conflict :
    (add_fsymbol c5_foo_mixed 1 true reg_empty).1 = RegResult.ok ∧
    (add_fsymbol c5_foo_mixed 1 true reg_empty).2.scope = [(c5_foo_lower, 1)] ∧
    (add_fsymbol c5_foo_lower 2 true
        (add_fsymbol c5_foo_mixed 1 true reg_empty).2).1 = RegResult.nowrap ∧
    (add_fsymbol c5_foo_lower 2 true
        (add_fsymbol c5_foo_mixed 1 true reg_empty).2).2.scope = [(c5_foo_lower, 1)] ∧
    (add_fsymbol c5_foo_lower 2 true
        (add_fsymbol c5_foo_mixed 1 true reg_empty).2).2.warns = [(2, c5_foo_lower, 1)] := by
  decide

theorem cfunc_loop_spec (ps : List CParm) :
    ∀ (i : Nat) (code outarg cleanup : List CSnip),
      cfunc_loop ps i code outarg cleanup =
        (code ++ spec_in_checks ps i, outarg ++ spec_argouts ps i,
          cleanup ++ spec_freeargs ps i) := by
  induction ps with
  | nil =>
    intro i code outarg cleanup
    simp [cfunc_loop, spec_in_checks, spec_argouts, spec_freeargs]
  | cons p rest ih =>
    intro i code outarg cleanup
    rw [cfunc_loop, ih, spec_in_checks, spec_argouts, spec_freeargs]
    simp [List.append_assoc]

/-- Claim C7: the stage-1 wrapper body of `cfuncWrapper` is emitted in
exactly the order the claim states: per parameter in declaration order the
`in` then `check` snippets, then the single call to the underlying operation
(the action embedded in the `out` conversion), then all `argout` snippets in
declaration order, then all `freearg` snippets in declaration order, then the
`ret` snippet, if any, immediately before the return statement. -/
theorem C7_stage1_emission_order (ps : List CParm) (has_out has_ret is_csub : Bool) :
    cfuncWrapper_code ps has_out has_ret is_csub =
      spec_stage1_code ps has_out has_ret is_csub := by
  rw [cfuncWrapper_code, spec_stage1_code, cfunc_loop_spec]
  simp [List.append_assoc]

theorem release_invocations_cleared (ownBit : Nat) :
    ∀ n, release_invocations ownBit n ⟨0, 0⟩ = 0 := by
  intro n
  induction n with
  | zero => rfl
  | succ n ih =>
    rw [release_invocations]
    simp [release_shadow, Nat.zero_testBit, ih]

/-- Claim C8: the release operation emitted by `destructorHandler` invokes
the underlying destructive action at most once over any number of successive
invocations: the shadow code runs the destructor only when the ownership bit
is set, then nulls the handle and clears the flags, so every invocation after
the first is a no-op on an already cleared handle. -/
theorem C8_release_at_most_once (ownBit n : Nat) (s : SwigClassWrapper) :
    release_invocations ownBit n s ≤ 1 ∧
    (release_shadow ownBit s).1 = ⟨0, 0⟩ ∧
    release_shadow ownBit (release_shadow ownBit s).1 = (⟨0, 0⟩, false) := by
  refine ⟨?_, rfl, by simp [release_shadow, Nat.zero_testBit]⟩
  cases n with
  | zero => simp [release_invocations]
  | succ n =>
    rw [release_invocations]
    have h1 : (release_shadow ownBit s).1 = ⟨0, 0⟩ := rfl
    rw [h1, release_invocations_cleared]
    cases (release_shadow ownBit s).2 <;> simp

theorem exc_errs_bindc (fs : List (List Char)) :
    exc_errs (fs.map (memberfunctionHandler_bindc true)) = fs := by
  induction fs with
  | nil => rfl
  | cons f r ih => simp [memberfunctionHandler_bindc, exc_errs, ih]

theorem exc_oks_bindc (fs : List (List Char)) :
    exc_oks (fs.map (memberfunctionHandler_bindc true)) = [] := by
  induction fs with
  | nil => rfl
  | cons f r ih => simp [memberfunctionHandler_bindc, exc_oks, ih]

/-- Claim C6: for an aggregate in interoperable-struct (bindc) mode, a
surviving (non-ignored) base class makes `classHandler` fail with a hard
error and emit nothing for the aggregate; a member function makes
`memberfunctionHandler` fail with a hard error, the member is recorded as an
error and never appears among the bound members; and the traversal over
sibling declarations processes every sibling independently, so siblings
continue to generate. -/
theorem C6_bindc_struct_hard_errors (n : ClassDecl) (hb : n.bindc = true) :
    ((first_base n.bases).isSome = true →
      classHandler n = { errors := [n.fortran_name], emitted := none }) ∧
    ((first_base n.bases).isSome = false →
      ∀ f ∈ n.memberFns,
        memberfunctionHandler_bindc true f = Except.error f ∧
        f ∈ (classHandler n).errors ∧
        f ∉ emitted_members (classHandler n)) ∧
    (∀ pre post : List ClassDecl,
      process_classes (pre ++ n :: post) =
        process_classes pre ++ classHandler n :: process_classes post) := by
  refine ⟨?_, ?_, ?_⟩
  · intro hs
    rw [classHandler, if_pos (by rw [hb, hs]; rfl)]
  · intro hs f hf
    have hcond : (n.bindc && (first_base n.bases).isSome) = false := by
      rw [hb, hs]; rfl
    refine ⟨rfl, ?_, ?_⟩
    · rw [classHandler, if_neg (by simp [hcond])]
      simp only [hb]
      rw [exc_errs_bindc]
      exact hf
    · rw [classHandler, if_neg (by simp [hcond])]
      simp only [hb, emitted_members]
      rw [exc_oks_bindc]
      simp
  · intro pre post
    simp [process_classes]

/-- Claim C6 witness: a concrete bindc struct with a base fails without
output, and a concrete bindc struct with a member function records the member
as an error and binds nothing. -/
theorem C6_bindc_struct_hard_errors_witness :
    c6_with_base.bindc = true ∧
    classHandler c6_with_base = { errors := [['s']], emitted := none } ∧
    (['m'] ∈ (classHandler c6_with_member).errors ∧
      ['m'] ∉ emitted_members (classHandler c6_with_member)) := by
  refine ⟨by decide, ?_, ?_⟩
  · exact (C6_bindc_struct_hard_errors c6_with_base (by decide)).1 (by decide)
  · have h := (C6_bindc_struct_hard_errors c6_with_member (by decide)).2.1
      (by decide) ['m'] (by decide)
    exact ⟨h.2.1, h.2.2⟩

/-- Claim C9: on the accessor path of `constantWrapper` (bindc typemap
present, dimensions fine, not inside a native enum, not a native parameter),
an `out` template with two or more statements (semicolons) is rejected with a
diagnostic and nothing is emitted for the constant, while a template with
exactly one statement is accepted and the accessor plus bound declaration are
emitted. -/
theorem C9_constant_single_statement (inEnum : Bool) (n : ConstInfo)
    (code : List Char) (henum : inEnum = false)
    (hb : n.bindc_tm.isSome = true) (hd : n.dims_ok = true)
    (hp : n.native_param = false) (hc : n.out_tm = some code) :
    (2 ≤ count_semicolons code →
      constantWrapper_emit inEnum n = (ConstEmit.nowrap, true)) ∧
    (count_semicolons code = 1 → n.ctype_ok = true →
      constantWrapper_emit inEnum n = (ConstEmit.accessor, false)) := by
  obtain ⟨tm, htm⟩ := Option.isSome_iff_exists.mp hb
  subst henum
  constructor
  · intro h2
    have hne : count_semicolons code ≠ 1 := by omega
    simp [constantWrapper_emit, htm, hd, hp, hc, hne]
  · intro h1 hct
    simp [constantWrapper_emit, htm, hd, hp, hc, h1, hct]

/-- Claim C9 witness: a two-statement template is rejected with a
diagnostic, a one-statement template is accepted. -/
theorem C9_constant_single_statement_witness :
    constantWrapper_emit false c9_two_statements = (ConstEmit.nowrap, true) ∧
    constantWrapper_emit false c9_one_statement = (ConstEmit.accessor, false) := by
  constructor
  · exact (C9_constant_single_statement false c9_two_statements
      (['a', ';', 'b', ';']) rfl (by decide) (by decide) (by decide) (by decide)).1
      (by decide)
  · exact (C9_constant_single_statement false c9_one_statement
      (['a', ';']) rfl (by decide) (by decide) (by decide) (by decide)).2
      (by decide) (by decide)

theorem ensure_short_id (l : List Char) (h : l.length ≤ 63) : ensure_short l = l := by
  rw [ensure_short, if_neg (by omega)]

theorem make_fname_of_valid (s : List Char) (h : is_valid_identifier s = true) :
    make_fname s = s := by
  cases s with
  | nil => exact absurd h (by decide)
  | cons c r =>
    rw [is_valid_identifier] at h
    by_cases h1 : c = '_'
    · rw [if_pos h1] at h
      exact absurd h (by decide)
    · rw [if_neg h1] at h
      by_cases h2 : ('0' ≤ c && c ≤ '9') = true
      · rw [if_pos h2] at h
        exact absurd h (by decide)
      · rw [if_neg h2] at h
        have hlen : (c :: r).length ≤ 63 := of_decide_eq_true h
        have hUD : isUD c = false := by
          rw [isUD, decide_eq_false h1, Bool.false_or]
          exact Bool.of_not_eq_true h2
        simp only [make_fname]
        rw [List.takeWhile_cons, hUD]
        simp only [Bool.false_eq_true, if_false, List.isEmpty_nil, if_pos]
        exact ensure_short_id _ hlen

theorem is_valid_identifier_cons (c : Char) (r : List Char)
    (h1 : ¬ c = '_') (h2 : ¬ ('0' ≤ c && c ≤ '9') = true)
    (hlen : (c :: r).length ≤ 63) :
    is_valid_identifier (c :: r) = true := by
  rw [is_valid_identifier, if_neg h1, if_neg h2]
  exact decide_eq_true hlen

theorem lowerStr_append (a b : List Char) :
    lowerStr (a ++ b) = lowerStr a ++ lowerStr b := by
  simp [lowerStr]

theorem lowerc_fixed :
    lowerStr ['s', 'w', 'i', 'g', 'c', '_'] = ['s', 'w', 'i', 'g', 'c', '_'] := by
  decide

theorem lowerf_fixed :
    lowerStr ['s', 'w', 'i', 'g', 'f', '_'] = ['s', 'w', 'i', 'g', 'f', '_'] := by
  decide

theorem swigc_ne_swigf (X Y : List Char) :
    (['s', 'w', 'i', 'g', 'c', '_'] ++ X) ≠ (['s', 'w', 'i', 'g', 'f', '_'] ++ Y) := by
  intro h
  simp at h

theorem same_stem_ne_c (s oi oj : List Char) (h : lowerStr oi ≠ lowerStr oj) :
    lowerStr (swigc_stem s ++ oi) ≠ lowerStr (swigc_stem s ++ oj) := by
  intro heq
  rw [lowerStr_append, lowerStr_append] at heq
  exact h (List.append_cancel_left heq)

theorem same_stem_ne_f (s oi oj : List Char) (h : lowerStr oi ≠ lowerStr oj) :
    lowerStr (swigf_stem s ++ oi) ≠ lowerStr (swigf_stem s ++ oj) := by
  intro heq
  rw [lowerStr_append, lowerStr_append] at heq
  exact h (List.append_cancel_left heq)

theorem cf_stem_ne (s oi oj : List Char) :
    lowerStr (swigc_stem s ++ oi) ≠ lowerStr (swigf_stem s ++ oj) := by
  intro heq
  rw [lowerStr_append, lowerStr_append, swigc_stem, swigf_stem,
    lowerStr_append, lowerStr_append, lowerc_fixed, lowerf_fixed,
    List.append_assoc, List.append_assoc] at heq
  exact swigc_ne_swigf _ _ heq

theorem add_fsymbol_free (s : List Char) (nid : Nat) (warn : Bool) (st : RegState)
    (hv : is_valid_identifier s = true)
    (hfree : scope_lookup st.scope (lowerStr s) = none) :
    add_fsymbol s nid warn st =
      (RegResult.ok, { st with scope := st.scope ++ [(lowerStr s, nid)] }) := by
  rw [add_fsymbol, hv, if_neg (by decide), hfree]

theorem stem_valid_c (s o : List Char) (h : 6 + (s.length + o.length) ≤ 63) :
    is_valid_identifier (swigc_stem s ++ o) = true := by
  have hform : swigc_stem s ++ o = 's' :: (['w', 'i', 'g', 'c', '_'] ++ s ++ o) := by
    simp [swigc_stem]
  rw [hform]
  refine is_valid_identifier_cons 's' (['w', 'i', 'g', 'c', '_'] ++ s ++ o)
    (by decide) (by decide) ?_
  simp [List.length_append]
  omega

theorem stem_valid_f (s o : List Char) (h : 6 + (s.length + o.length) ≤ 63) :
    is_valid_identifier (swigf_stem s ++ o) = true := by
  have hform : swigf_stem s ++ o = 's' :: (['w', 'i', 'g', 'f', '_'] ++ s ++ o) := by
    simp [swigf_stem]
  rw [hform]
  refine is_valid_identifier_cons 's' (['w', 'i', 'g', 'f', '_'] ++ s ++ o)
    (by decide) (by decide) ?_
  simp [List.length_append]
  omega

theorem functionWrapper_overload_step (sc : List (List Char × Nat))
    (ws : List (Nat × List Char × Nat)) (es : List (List Char))
    (ovl : List (List Char × List (List Char))) (pubs : List (List Char))
    (i : Nat) (s o : List Char)
    (hvim : is_valid_identifier (swigc_stem s ++ o) = true)
    (hvf : is_valid_identifier (swigf_stem s ++ o) = true)
    (hlc : (swigc_stem s).length ≤ 63)
    (hlf : (swigf_stem s).length ≤ 63)
    (hms : make_fname s = s)
    (hfree1 : scope_lookup sc (lowerStr (swigc_stem s ++ o)) = none)
    (hfree2 : scope_lookup (sc ++ [(lowerStr (swigc_stem s ++ o), i)])
      (lowerStr (swigf_stem s ++ o)) = none) :
    functionWrapper_mod ⟨⟨sc, ws, es⟩, ovl, pubs⟩
        { id := i, symname := s, overname := some o,
          generic_feature := none, fortran_name := none } =
      ⟨⟨sc ++ [(lowerStr (swigc_stem s ++ o), i)] ++
          [(lowerStr (swigf_stem s ++ o), i)], ws, es⟩,
        overloads_add ovl s (swigf_stem s ++ o), pubs⟩ := by
  have hnames : overload_names
      { id := i, symname := s, overname := some o,
        generic_feature := none, fortran_name := none } =
      (swigc_stem s ++ o, swigf_stem s ++ o, some s) := by
    show (ensure_short (swigc_stem s) ++ o, proxy_name_construct s ++ o,
      some (make_fname s)) = _
    rw [proxy_name_construct, ensure_short_id _ hlc, ensure_short_id _ hlf, hms]
  have hreg1 := add_fsymbol_free (swigc_stem s ++ o) i true ⟨sc, ws, es⟩ hvim hfree1
  have hreg2 := add_fsymbol_free (swigf_stem s ++ o) i true
    ⟨sc ++ [(lowerStr (swigc_stem s ++ o), i)], ws, es⟩ hvf hfree2
  simp only [functionWrapper_mod, hnames]
  simp [hreg1, hreg2]

/-- Claim C4: three operations in the same module scope sharing one public
display name, with distinct overload suffixes, registered in order A, B, C,
produce exactly one public generic interface group, keyed by the shared
display name, listing exactly the three private proxy names in registration
order; and none of the individual proxy names is publicly exposed. -/
theorem C4_overload_single_generic_group (s o1 o2 o3 : List Char)
    (hv : is_valid_identifier s = true)
    (hl1 : s.length + o1.length ≤ 57)
    (hl2 : s.length + o2.length ≤ 57)
    (hl3 : s.length + o3.length ≤ 57)
    (hd12 : lowerStr o1 ≠ lowerStr o2)
    (hd13 : lowerStr o1 ≠ lowerStr o3)
    (hd23 : lowerStr o2 ≠ lowerStr o3) :
    module_interfaces (c4_run s o1 o2 o3) =
      [(s, [swigf_name s o1, swigf_name s o2, swigf_name s o3])] ∧
    ∀ nm ∈ [swigf_name s o1, swigf_name s o2, swigf_name s o3],
      nm ∉ module_publics (c4_run s o1 o2 o3) := by
  have hslen : s.length ≤ 57 := by omega
  have hlc : (swigc_stem s).length ≤ 63 := by
    simp [swigc_stem, List.length_append]
    omega
  have hlf : (swigf_stem s).length ≤ 63 := by
    simp [swigf_stem, List.length_append]
    omega
  have hms := make_fname_of_valid s hv
  have hstep1 := functionWrapper_overload_step [] [] [] [] [] 1 s o1
    (stem_valid_c s o1 (by omega)) (stem_valid_f s o1 (by omega)) hlc hlf hms rfl
    (by simp [scope_lookup, cf_stem_ne s o1 o1])
  have hstep2 := functionWrapper_overload_step
    ([] ++ [(lowerStr (swigc_stem s ++ o1), 1)] ++
      [(lowerStr (swigf_stem s ++ o1), 1)]) [] []
    (overloads_add [] s (swigf_stem s ++ o1)) [] 2 s o2
    (stem_valid_c s o2 (by omega)) (stem_valid_f s o2 (by omega)) hlc hlf hms
    (by simp [scope_lookup, same_stem_ne_c s o1 o2 hd12, (cf_stem_ne s o2 o1).symm])
    (by simp [scope_lookup, cf_stem_ne s o1 o2, same_stem_ne_f s o1 o2 hd12,
      cf_stem_ne s o2 o2])
  have hstep3 := functionWrapper_overload_step
    ([] ++ [(lowerStr (swigc_stem s ++ o1), 1)] ++
      [(lowerStr (swigf_stem s ++ o1), 1)] ++
      [(lowerStr (swigc_stem s ++ o2), 2)] ++
      [(lowerStr (swigf_stem s ++ o2), 2)]) [] []
    (overloads_add (overloads_add [] s (swigf_stem s ++ o1)) s
      (swigf_stem s ++ o2)) [] 3 s o3
    (stem_valid_c s o3 (by omega)) (stem_valid_f s o3 (by omega)) hlc hlf hms
    (by simp [scope_lookup, same_stem_ne_c s o1 o3 hd13, (cf_stem_ne s o3 o1).symm,
      same_stem_ne_c s o2 o3 hd23, (cf_stem_ne s o3 o2).symm])
    (by simp [scope_lookup, cf_stem_ne s o1 o3, same_stem_ne_f s o1 o3 hd13,
      cf_stem_ne s o2 o3, same_stem_ne_f s o2 o3 hd23, cf_stem_ne s o3 o3])
  have hrun : c4_run s o1 o2 o3 =
      ⟨⟨[] ++ [(lowerStr (swigc_stem s ++ o1), 1)] ++
          [(lowerStr (swigf_stem s ++ o1), 1)] ++
          [(lowerStr (swigc_stem s ++ o2), 2)] ++
          [(lowerStr (swigf_stem s ++ o2), 2)] ++
          [(lowerStr (swigc_stem s ++ o3), 3)] ++
          [(lowerStr (swigf_stem s ++ o3), 3)], [], []⟩,
        overloads_add (overloads_add (overloads_add [] s
          (swigf_stem s ++ o1)) s (swigf_stem s ++ o2)) s
          (swigf_stem s ++ o3), []⟩ := by
    show functionWrapper_mod (functionWrapper_mod (functionWrapper_mod
      ⟨⟨[], [], []⟩, [], []⟩ _) _) _ = _
    rw [hstep1, hstep2, hstep3]
  have hovl : overloads_add (overloads_add (overloads_add [] s
      (swigf_stem s ++ o1)) s (swigf_stem s ++ o2)) s (swigf_stem s ++ o3) =
      [(s, [swigf_name s o1, swigf_name s o2, swigf_name s o3])] := by
    simp [overloads_add, swigf_name]
  constructor
  · rw [module_interfaces, hrun, hovl]
  · intro nm hnm
    have hpub : module_publics (c4_run s o1 o2 o3) = [s] := by
      rw [module_publics, hrun]
      simp [hovl]
    rw [hpub]
    simp only [List.mem_cons, List.not_mem_nil, or_false] at hnm
    intro hmem
    have hnmeq : nm = s := by simpa using hmem
    rcases hnm with rfl | rfl | rfl
    all_goals
      have hlenmm := congrArg List.length hnmeq
    all_goals
      simp [swigf_name, swigf_stem, List.length_append] at hlenmm
    all_goals omega

/-- Claim C4 witness: three concrete overloads of `myfunc` with the SWIG
overload suffixes produce one generic group with the three proxies in order,
and no proxy name is exposed. -/
theorem C4_overload_single_generic_group_witness :
    module_interfaces (c4_run c4_sym (c4_ov '0') (c4_ov '1') (c4_ov '2')) =
      [(c4_sym, [swigf_name c4_sym (c4_ov '0'), swigf_name c4_sym (c4_ov '1'),
        swigf_name c4_sym (c4_ov '2')])] ∧
    ∀ nm ∈ [swigf_name c4_sym (c4_ov '0'), swigf_name c4_sym (c4_ov '1'),
        swigf_name c4_sym (c4_ov '2')],
      nm ∉ module_publics (c4_run c4_sym (c4_ov '0') (c4_ov '1') (c4_ov '2')) :=
  C4_overload_single_generic_group c4_sym (c4_ov '0') (c4_ov '1') (c4_ov '2')
    (by decide) (by decide) (by decide) (by decide)
    (by decide) (by decide) (by decide)

theorem digitsVal_natDigitsRevAux (fuel : Nat) :
    ∀ n, n ≤ fuel → digitsVal (natDigitsRevAux fuel n) = n := by
  induction fuel with
  | zero =>
    intro n hn
    interval_cases n
    rfl
  | succ fuel ih =>
    intro n hn
    rw [natDigitsRevAux]
    by_cases h0 : n = 0
    · simp [h0, digitsVal]
    · rw [if_neg h0, digitsVal]
      have hdiv : n / 10 ≤ fuel := by
        have := Nat.div_lt_self (Nat.pos_of_ne_zero h0) (by decide : 1 < 10)
        omega
      rw [ih (n / 10) hdiv]
      have hchar : (Char.ofNat (48 + n % 10)).toNat = 48 + n % 10 := by
        have h10 : n % 10 < 10 := Nat.mod_lt _ (by decide)
        set r := n % 10 with hr
        interval_cases r <;> decide
      rw [hchar]
      omega

theorem digitsVal_natDigitsRev (n : Nat) : digitsVal (natDigitsRev n) = n :=
  digitsVal_natDigitsRevAux n n le_rfl

theorem natDigits_inj (m n : Nat) (h : natDigits m = natDigits n) : m = n := by
  rw [natDigits, natDigits] at h
  by_cases hm : m = 0 <;> by_cases hn : n = 0
  · omega
  · rw [if_pos hm, if_neg hn] at h
    have h2 : natDigitsRev n = ['0'] := by
      have := congrArg List.reverse h
      simpa [List.reverse_reverse] using this.symm
    have h3 := digitsVal_natDigitsRev n
    rw [h2] at h3
    have h4 : digitsVal ['0'] = 0 := by decide
    rw [h4] at h3
    exact absurd h3.symm hn
  · rw [if_neg hm, if_pos hn] at h
    have h2 : natDigitsRev m = ['0'] := by
      have := congrArg List.reverse h
      simpa [List.reverse_reverse] using this
    have h3 := digitsVal_natDigitsRev m
    rw [h2] at h3
    have h4 : digitsVal ['0'] = 0 := by decide
    rw [h4] at h3
    exact absurd h3.symm hm
  · rw [if_neg hm, if_neg hn] at h
    have h2 := List.reverse_injective h
    have h3 := digitsVal_natDigitsRev m
    rw [h2, digitsVal_natDigitsRev n] at h3
    exact h3.symm

theorem natDigits_ne_nil (n : Nat) : natDigits n ≠ [] := by
  rw [natDigits]
  by_cases h0 : n = 0
  · simp [h0]
  · rw [if_neg h0]
    intro h
    have h2 : natDigitsRev n = [] := by
      have := congrArg List.reverse h
      simpa using this
    have h3 := digitsVal_natDigitsRev n
    rw [h2] at h3
    have h4 : digitsVal [] = 0 := rfl
    rw [h4] at h3
    exact h0 h3.symm

theorem mpn_cand_succ (orig : List Char) :
    ∀ (k a : Nat) (c : List Char),
      mpn_cand orig (k + 1) a c = orig ++ natDigits (a + k) := by
  intro k
  induction k with
  | zero => intro a c; rfl
  | succ k ih =>
    intro a c
    rw [mpn_cand, ih]
    have harith : a + 1 + k = a + (k + 1) := by omega
    rw [harith]

theorem mpn_cand_inj (orig : List Char) (a : Nat) :
    ∀ i j, mpn_cand orig i a orig = mpn_cand orig j a orig → i = j := by
  intro i j h
  match i, j with
  | 0, 0 => rfl
  | 0, j + 1 =>
    rw [mpn_cand, mpn_cand_succ] at h
    have hlen := congrArg List.length h
    rw [List.length_append] at hlen
    have hD : (natDigits (a + j)).length = 0 := by omega
    exact absurd (List.eq_nil_of_length_eq_zero hD) (natDigits_ne_nil _)
  | i + 1, 0 =>
    rw [mpn_cand_succ] at h
    conv_rhs at h => rw [mpn_cand]
    have hlen := congrArg List.length h
    rw [List.length_append] at hlen
    have hD : (natDigits (a + i)).length = 0 := by omega
    exact absurd (List.eq_nil_of_length_eq_zero hD) (natDigits_ne_nil _)
  | i + 1, j + 1 =>
    rw [mpn_cand_succ, mpn_cand_succ] at h
    have := natDigits_inj _ _ (List.append_cancel_left h)
    omega

theorem exists_cand_free (obs : List (List Char)) (f : Nat → List Char)
    (hinj : ∀ i j, f i = f j → i = j) :
    ∃ k, k ≤ obs.length ∧ f k ∉ obs := by
  by_contra hall
  push_neg at hall
  have hsub : (Finset.range (obs.length + 1)).image f ⊆ obs.toFinset := by
    intro x hx
    obtain ⟨i, hi, rfl⟩ := Finset.mem_image.mp hx
    rw [List.mem_toFinset]
    exact hall i (Nat.lt_succ_iff.mp (Finset.mem_range.mp hi))
  have hcard := Finset.card_le_card hsub
  rw [Finset.card_image_of_injOn (fun a _ b _ hab => hinj a b hab),
    Finset.card_range] at hcard
  have := List.toFinset_card_le obs
  omega

theorem mpn_taken_false (E : List MPParm) (S : List (List Char)) (c : List Char)
    (h : mpn_taken E S c = false) :
    (∀ q ∈ E, ∀ m, q.fname = some m → m ≠ c) ∧ c ∉ S := by
  rw [mpn_taken, Bool.or_eq_false_iff] at h
  obtain ⟨h1, h2⟩ := h
  constructor
  · intro q hq m hm heq
    rw [List.any_eq_false] at h1
    have := h1 q hq
    simp at this
    exact this (by rw [hm, heq])
  · intro hc
    simp at h2
    exact h2 hc

theorem mpn_taken_mem (E : List MPParm) (S : List (List Char)) (c : List Char) :
    mpn_taken E S c = true ↔ c ∈ (E.filterMap fun q => q.fname) ++ S := by
  simp [mpn_taken, List.mem_filterMap]

theorem mpn_exists_free (E : List MPParm) (S : List (List Char))
    (orig : List Char) (a : Nat) :
    ∃ k, k < E.length + S.length + 1 ∧
      mpn_taken E S (mpn_cand orig k a orig) = false := by
  obtain ⟨k, hk, hfree⟩ := exists_cand_free ((E.filterMap fun q => q.fname) ++ S)
    (fun k => mpn_cand orig k a orig) (mpn_cand_inj orig a)
  refine ⟨k, ?_, ?_⟩
  · have h1 : ((E.filterMap fun q => q.fname) ++ S).length ≤ E.length + S.length := by
      rw [List.length_append]
      have := List.length_filterMap_le (fun q : MPParm => q.fname) E
      omega
    omega
  · have hnot : ¬ mpn_taken E S (mpn_cand orig k a orig) = true := by
      rw [mpn_taken_mem]
      exact hfree
    exact Bool.of_not_eq_true hnot

theorem mpn_loop_free (E : List MPParm) (S : List (List Char)) (orig : List Char) :
    ∀ (fuel argnum : Nat) (cand : List Char),
      (∃ k, k < fuel ∧ mpn_taken E S (mpn_cand orig k argnum cand) = false) →
      mpn_taken E S (mpn_loop E S orig fuel argnum cand) = false := by
  intro fuel
  induction fuel with
  | zero =>
    intro argnum cand h
    obtain ⟨k, hk, _⟩ := h
    omega
  | succ fuel ih =>
    intro argnum cand h
    obtain ⟨k, hk, hfree⟩ := h
    rw [mpn_loop]
    by_cases htaken : mpn_taken E S cand = true
    · rw [if_pos htaken]
      apply ih
      cases k with
      | zero =>
        rw [mpn_cand] at hfree
        rw [hfree] at htaken
        exact absurd htaken (by decide)
      | succ k =>
        refine ⟨k, by omega, ?_⟩
        rw [mpn_cand] at hfree
        exact hfree
    · rw [if_neg htaken]
      exact Bool.of_not_eq_true htaken

/-- Claim C10: the derived proxy argument name computed by
`makeParameterName` for a parameter without a cached name is distinct from
every derived name already assigned to an earlier parameter of the same list
and from every identifier registered in the module-level symbol scope; the
name is cached on the parameter, and every subsequent call for the same
parameter returns the identical cached name and leaves the list unchanged. -/
theorem C10_parameter_names_unique_and_cached (parms : List MPParm)
    (symtab : List (List Char)) (idx arg_num : Nat) (p : MPParm)
    (hp : parms[idx]? = some p) (hpf : p.fname = none) :
    (∀ q ∈ parms.take idx, ∀ m, q.fname = some m →
      m ≠ (makeParameterName parms symtab idx arg_num).1) ∧
    (makeParameterName parms symtab idx arg_num).1 ∉ symtab ∧
    (∀ arg2 : Nat, makeParameterName (makeParameterName parms symtab idx arg_num).2
        symtab idx arg2 =
      ((makeParameterName parms symtab idx arg_num).1,
        (makeParameterName parms symtab idx arg_num).2)) := by
  have hres : makeParameterName parms symtab idx arg_num =
      (mpn_loop (parms.take idx) symtab (mpn_orig p arg_num)
        ((parms.take idx).length + symtab.length + 1) arg_num (mpn_orig p arg_num),
       parms.set idx { p with fname := some (mpn_loop (parms.take idx) symtab
         (mpn_orig p arg_num) ((parms.take idx).length + symtab.length + 1)
         arg_num (mpn_orig p arg_num)) }) := by
    simp only [makeParameterName, hp, hpf]
  have hfree : mpn_taken (parms.take idx) symtab
      (mpn_loop (parms.take idx) symtab (mpn_orig p arg_num)
        ((parms.take idx).length + symtab.length + 1) arg_num
        (mpn_orig p arg_num)) = false := by
    apply mpn_loop_free
    exact mpn_exists_free (parms.take idx) symtab (mpn_orig p arg_num) arg_num
  obtain ⟨hearlier, hsym⟩ := mpn_taken_false _ _ _ hfree
  have hidx : idx < parms.length := by
    by_contra hge
    rw [List.getElem?_eq_none (by omega)] at hp
    exact absurd hp (by simp)
  refine ⟨?_, ?_, ?_⟩
  · intro q hq m hm
    rw [hres]
    exact hearlier q hq m hm
  · rw [hres]
    exact hsym
  · intro arg2
    rw [hres]
    have hget : (parms.set idx { p with fname := some (mpn_loop (parms.take idx)
        symtab (mpn_orig p arg_num) ((parms.take idx).length + symtab.length + 1)
        arg_num (mpn_orig p arg_num)) })[idx]? =
        some { p with fname := some (mpn_loop (parms.take idx) symtab
          (mpn_orig p arg_num) ((parms.take idx).length + symtab.length + 1)
          arg_num (mpn_orig p arg_num)) } := by
      simp [List.getElem?_set_self, hidx]
    simp only [makeParameterName, hget]

/-- Claim C10 witness: with an earlier parameter already named `n` and the
scope holding `n1`, the second parameter named `n` is renamed to `n2`, which
collides with nothing, and a repeated call returns the cached name. -/
theorem C10_parameter_names_unique_and_cached_witness :
    (makeParameterName c10_parms c10_symtab 1 1).1 = ['n', '2'] ∧
    (∀ q ∈ c10_parms.take 1, ∀ m, q.fname = some m →
      m ≠ (makeParameterName c10_parms c10_symtab 1 1).1) ∧
    (makeParameterName c10_parms c10_symtab 1 1).1 ∉ c10_symtab ∧
    makeParameterName (makeParameterName c10_parms c10_symtab 1 1).2 c10_symtab 1 7 =
      ((makeParameterName c10_parms c10_symtab 1 1).1,
        (makeParameterName c10_parms c10_symtab 1 1).2) := by
  have h := C10_parameter_names_unique_and_cached c10_parms c10_symtab 1 1
    { pname := some ['n'], fname := none } (by decide) (by decide)
  exact ⟨by decide, h.1, h.2.1, h.2.2 7⟩

end SwigFortran
